import Mathlib

/-!
Verification development for the multilingual-prompt code-analysis pipeline.

The definitions below are a shallow embedding of the two core source modules:

* `LLM_strip.py` — `extract_code_from_response` (the Response Sanitizer):
  `<think>...</think>` removal, preamble-line removal, fenced-block scanning
  with longest-block selection, the heuristic code-start fallback, prose
  truncation.
* `Experiments/python_ast_parser.py` — `PythonASTParser`:
  `_clean_code` / `_fix_common_errors` (the Code Repairer), `parse_code`,
  `_extract_statistics` / `_extract_elements` over a Python AST,
  `parse_all_languages`, and the summary-report counters.

Code text is modelled as `List Char`; Python regular-expression steps are
modelled by explicit scanners with the same matching semantics (leftmost
match, greedy/lazy extents as dictated by each concrete pattern); fallible
parsing (`ast.parse`) is an explicit parameter of type
`List Char → Except (List Char) Node`, since the concrete CPython grammar is
outside the embedded core.
-/

namespace LlmPipeline

/-- Python `\s` / `str.strip` whitespace over the ASCII range
(`' '`, `\t`, `\n`, `\r`, `\x0b`, `\x0c`). -/
def pyIsSpace (c : Char) : Bool :=
  c = ' ' || c = '\t' || c = '\n' || c = '\r' || c = '\x0b' || c = '\x0c'

/-- Python `str.strip()`: drop whitespace from both ends. -/
def pyStrip (s : List Char) : List Char :=
  ((s.dropWhile pyIsSpace).reverse.dropWhile pyIsSpace).reverse

/-- Python `str.rstrip()`: drop whitespace from the right end only. -/
def pyRstrip (s : List Char) : List Char :=
  (s.reverse.dropWhile pyIsSpace).reverse

/-- `hasPrefixB p s`: `p` is a prefix of `s` (executable). -/
def hasPrefixB : List Char → List Char → Bool
  | [], _ => true
  | _ :: _, [] => false
  | a :: p, b :: s => a = b && hasPrefixB p s

/-- Find the leftmost occurrence of `p` in `s`; on success return the text
before the occurrence and the text after it.  This is the substring search
underlying every `re`-based scanner of the sanitizer. -/
def findSub (p : List Char) : List Char → Option (List Char × List Char)
  | [] => if hasPrefixB p [] then some ([], ([] : List Char).drop p.length) else none
  | c :: t =>
    if hasPrefixB p (c :: t) then some ([], (c :: t).drop p.length)
    else (findSub p t).map (fun pr => (c :: pr.1, pr.2))

/-- `containsSub p s`: `p` occurs somewhere inside `s` (executable). -/
def containsSub (p s : List Char) : Bool :=
  (findSub p s).isSome

/-- `p` has no nontrivial border: no strict nonempty suffix of `p` is
also a prefix of `p`.  All marker strings used by the sanitizer
(`<think>`, `</think>`) satisfy this by computation. -/
def unborderedB (p : List Char) : Bool :=
  (List.range p.length).all
    (fun k => (k == 0) || !(p.drop k == p.take (p.length - k)))

/-! ### Response Sanitizer (`LLM_strip.extract_code_from_response`) -/

/-- The opening reasoning marker recognised by the sanitizer. -/
def thinkOpen : List Char := ['<', 't', 'h', 'i', 'n', 'k', '>']

/-- The closing reasoning marker recognised by the sanitizer. -/
def thinkClose : List Char := ['<', '/', 't', 'h', 'i', 'n', 'k', '>']

/-- `re.sub(r"<think>[\s\S]*?</think>", "", text)`: repeatedly remove the
leftmost `<think>` marker together with everything up to the first following
`</think>`; an unclosed `<think>` is left in place (the pattern cannot match
without a closing marker after the leftmost opening one). -/
def stripThink : Nat → List Char → List Char
  | 0, s => s
  | fuel + 1, s =>
    match findSub thinkOpen s with
    | none => s
    | some (pre, post) =>
      match findSub thinkClose post with
      | none => s
      | some (_, rest) => pre ++ stripThink fuel rest

def stripThinkTop (s : List Char) : List Char := stripThink s.length s

/-- Case-insensitive prefix test (for the `(?i)` preamble pattern). -/
def hasPrefixCI : List Char → List Char → Bool
  | [], _ => true
  | _ :: _, [] => false
  | a :: p, b :: s => a.toLower = b.toLower && hasPrefixCI p s

/-- The preamble labels of `(?i)^(thoughts?|reasoning|analysis)\s*:`, in the
regex's alternation order (`thoughts` before `thought`, reflecting the greedy
`s?`). -/
def preambleLabels : List (List Char) :=
  [ ['t','h','o','u','g','h','t','s'], ['t','h','o','u','g','h','t'],
    ['r','e','a','s','o','n','i','n','g'], ['a','n','a','l','y','s','i','s'] ]

/-- Try to match `(?i)^(thoughts?|reasoning|analysis)\s*:.*?$` at the start of
`s` (which must be a line start); on success return the remainder of the text
starting at the matched line's end (`$` stops before the newline). -/
def matchPreambleAt (s : List Char) : Option (List Char) :=
  match preambleLabels.find? (fun l => hasPrefixCI l s) with
  | none => none
  | some l =>
    match (s.drop l.length).dropWhile pyIsSpace with
    | ':' :: w => some (w.dropWhile (fun c => !(c == '\n')))
    | _ => none

/-- `re.sub(r"(?i)^(thoughts?|reasoning|analysis)\s*:.*?$", "", text,
flags=re.MULTILINE)`: at every line start, a label followed by optional
whitespace and a colon erases the match up to that line's end. -/
def stripPre : Nat → Bool → List Char → List Char
  | 0, _, s => s
  | f + 1, lineStart, s =>
    match s with
    | [] => []
    | ch :: t =>
      if lineStart then
        match matchPreambleAt s with
        | some rest => stripPre f false rest
        | none => ch :: stripPre f (ch == '\n') t
      else ch :: stripPre f (ch == '\n') t

def stripPreambles (s : List Char) : List Char := stripPre s.length true s

/-- A backtick (written via its code point). -/
def btick : Char := Char.ofNat 96

/-- The triple-backtick fence delimiter. -/
def fenceTok : List Char := [btick, btick, btick]

/-- Characters allowed in a fence language tag: `[a-zA-Z0-9_+-]`. -/
def isTagChar (c : Char) : Bool :=
  c.isAlphanum || c = '_' || c = '+' || c = '-'

/-- `re.findall(r"```[a-zA-Z0-9_+-]*\s*([\s\S]*?)\s*```", text)`: scan for an
opening fence, skip the language tag and following whitespace, capture lazily
up to the first closing fence (the trailing `\s*` trims the capture's
whitespace; combined here with the caller's `b.strip()`), and continue after
the closing fence. -/
def fenceBlocksGo : Nat → List Char → List (List Char)
  | 0, _ => []
  | f + 1, s =>
    match findSub fenceTok s with
    | none => []
    | some (_, afterOpen) =>
      let afterTag := afterOpen.dropWhile isTagChar
      let afterWs := afterTag.dropWhile pyIsSpace
      match findSub fenceTok afterWs with
      | none => []
      | some (block, rest) => pyStrip block :: fenceBlocksGo f rest

def fenceBlocks (s : List Char) : List (List Char) := fenceBlocksGo s.length s

/-- Python `max(..., key=len)` over a nonempty list: keep the current
maximum and replace it only on a strictly greater length, so the first
occurrence wins ties. -/
def pyMax1 : List Char → List (List Char) → List Char
  | x, [] => x
  | x, b :: bs => if x.length < b.length then pyMax1 b bs else pyMax1 x bs

/-- `max((b.strip() for b in blocks), key=len, default="")`. -/
def pyMaxByLen : List (List Char) → List Char
  | [] => []
  | x :: xs => pyMax1 x xs

/-- A single-quote and a double-quote character (via code points). -/
def sq : Char := Char.ofNat 39

def dq : Char := Char.ofNat 34

/-- `if __name__ == <q1>__main__<q2>:` with each quote drawn independently
from the character class `['\x22]` of the code-start pattern. -/
def mainGuard (q1 q2 : Char) : List Char :=
  ['i','f',' ','_','_','n','a','m','e','_','_',' ','=','=',' ']
    ++ [q1] ++ ['_','_','m','a','i','n','_','_'] ++ [q2] ++ [':']

/-- The code-start alternatives of
`(^|\n)\s*(def |class |import |from |@|if __name__ == [quote]__main__[quote]:)`. -/
def codeTokens : List (List Char) :=
  [ ['d','e','f',' '], ['c','l','a','s','s',' '], ['i','m','p','o','r','t',' '],
    ['f','r','o','m',' '], ['@'],
    mainGuard sq sq, mainGuard sq dq, mainGuard dq sq, mainGuard dq dq ]

/-- After a line start, `\s*` then one of the code-start tokens. -/
def matchTokenAfterWs (u : List Char) : Bool :=
  codeTokens.any (fun k => hasPrefixB k (u.dropWhile pyIsSpace))

def codeStartGo : List Char → Nat → Option Nat
  | [], _ => none
  | ch :: t, i =>
    if ch == '\n' && matchTokenAfterWs t then some i else codeStartGo t (i + 1)

/-- `re.search` for the code-start pattern: the match may begin at position 0
(`^`) or at any newline; `match.start()` is returned. -/
def codeStartIdx (s : List Char) : Option Nat :=
  if matchTokenAfterWs s then some 0 else codeStartGo s 0

/-- The prose labels of `\n\s*(Explanation|Notes?|Output|Result|Example)\s*:`
(case-sensitive; `Notes` before `Note` for the greedy `s?`). -/
def proseLabels : List (List Char) :=
  [ ['E','x','p','l','a','n','a','t','i','o','n'], ['N','o','t','e','s'],
    ['N','o','t','e'], ['O','u','t','p','u','t'], ['R','e','s','u','l','t'],
    ['E','x','a','m','p','l','e'] ]

/-- After a newline: `\s*` then a prose label, `\s*`, and a colon — or
`\s*` then `#`, `\s*`, and `End`. -/
def proseMarkerAfter (t : List Char) : Bool :=
  let v := t.dropWhile pyIsSpace
  proseLabels.any (fun l =>
    hasPrefixB l v && (((v.drop l.length).dropWhile pyIsSpace).headD ' ' == ':'))
  || ((v.headD ' ' == '#') && hasPrefixB ['E','n','d'] ((v.drop 1).dropWhile pyIsSpace))

def proseSplitGo : List Char → Nat → Option Nat
  | [], _ => none
  | ch :: t, i =>
    if ch == '\n' && proseMarkerAfter t then some i else proseSplitGo t (i + 1)

/-- `re.split(r"\n\s*(Explanation|Notes?|Output|Result|Example)\s*:|\n\s*#\s*End",
candidate)[0]`: everything before the leftmost prose-section marker. -/
def proseTruncate (cand : List Char) : List Char :=
  match proseSplitGo cand 0 with
  | none => cand
  | some j => cand.take j

/-- Steps 2-4 of the sanitizer, applied to the think-stripped text: remove
preamble lines, prefer fenced blocks (longest, first on ties), otherwise the
heuristic code-start fallback with prose truncation. -/
def afterThink (t1 : List Char) : List Char :=
  let t2 := stripPreambles t1
  match fenceBlocks t2 with
  | [] =>
    match codeStartIdx t2 with
    | none => []
    | some i => pyStrip (proseTruncate (pyStrip (t2.drop i)))
  | b :: bs => pyMaxByLen (b :: bs)

/-- `LLM_strip.extract_code_from_response`. -/
def extract_code_from_response (s : List Char) : List Char :=
  if s = [] then [] else afterThink (stripThinkTop s)

/-! ### Code Repairer (`PythonASTParser._clean_code` / `_fix_common_errors`) -/

/-- One line of `_clean_code`'s loop: drop empty and comment-only lines;
truncate an inline comment at the first `#` and `rstrip`, dropping the line
if nothing remains; otherwise keep the line unchanged. -/
def cleanLine (line : List Char) : Option (List Char) :=
  let stripped := pyStrip line
  if stripped = [] then none
  else if stripped.headD ' ' == '#' then none
  else if line.contains '#' then
    let l2 := pyRstrip (line.takeWhile (fun c => !(c == '#')))
    if l2 = [] then none else some l2
  else some line

/-- `_clean_code`'s comment-stripping pass: split on newlines, clean each
line, and rejoin with newlines. -/
def stripCommentLines (code : List Char) : List Char :=
  List.intercalate ['\n'] ((code.splitOn '\n').filterMap cleanLine)

/-- Drop a single trailing newline (the `\n?` just before the closing fence
of the parser's markdown pattern). -/
def dropOneTrailingNl (b : List Char) : List Char :=
  match b.reverse with
  | '\n' :: r => r.reverse
  | _ => b

/-- `re.findall(r"```(?:python)?\s*\n?(.*?)\n?```", code, DOTALL|IGNORECASE)`
restricted to the first block, which is all `_clean_code` uses: opening
fence, optional case-insensitive `python` tag, greedy whitespace, lazy
capture up to the first closing fence minus one absorbed newline. -/
def cleanFirstBlock (s : List Char) : Option (List Char) :=
  match findSub fenceTok s with
  | none => none
  | some (_, afterOpen) =>
    let afterTag :=
      if hasPrefixCI ['p','y','t','h','o','n'] afterOpen then afterOpen.drop 6
      else afterOpen
    let afterWs := afterTag.dropWhile pyIsSpace
    match findSub fenceTok afterWs with
    | none => none
    | some (block, _) => some (dropOneTrailingNl block)

/-- Remove the first occurrence of `c` (identity when `c` is absent). -/
def removeFirst (c : Char) : List Char → List Char
  | [] => []
  | x :: t => if x == c then t else x :: removeFirst c t

/-- `code.rfind(c)` followed by deletion: remove the last occurrence of
`c`, or leave the text unchanged when `rfind` returns `-1`. -/
def removeLast (c : Char) (s : List Char) : List Char :=
  (removeFirst c s.reverse).reverse

/-- The `for _ in range(diff)` loop of `_fix_common_errors`: remove the
last occurrence of `c`, `n` times. -/
def removeN (c : Char) : Nat → List Char → List Char
  | 0, s => s
  | n + 1, s => removeN c n (removeLast c s)

/-- One bracket kind of `_fix_common_errors`: if closers outnumber openers,
remove the excess closers rightmost-first; openers are never inserted. -/
def trimExcess (o c : Char) (s : List Char) : List Char :=
  if s.count o < s.count c then removeN c (s.count c - s.count o) s else s

/-- Left and right curly braces (via code points). -/
def lbrace : Char := Char.ofNat 123

def rbrace : Char := Char.ofNat 125

/-- The three balance-trimming steps of `_fix_common_errors`, in source
order: parentheses, then square brackets, then braces. -/
def fixBalance (s : List Char) : List Char :=
  trimExcess lbrace rbrace (trimExcess '[' ']' (trimExcess '(' ')' s))

/-- First index of `c` in `u` at or after `start`. -/
def firstIdxFrom (c : Char) (u : List Char) (start : Nat) : Option Nat :=
  let v := u.drop start
  let t := v.takeWhile (fun x => !(x == c))
  if t.length < v.length then some (start + t.length) else none

/-- Backtracking over brace positions (last first, as the regex engine
shrinks the greedy `[^"]*`): for a chosen `{` at index `j` of `u`, the match
needs the first `}` after `j` and then the first `"` after that; on failure
try the previous `{`. -/
def tryBraces (u : List Char) : List Nat → Option Nat
  | [] => none
  | j :: js =>
    match firstIdxFrom rbrace u (j + 1) with
    | none => tryBraces u js
    | some k =>
      match firstIdxFrom dq u (k + 1) with
      | none => tryBraces u js
      | some q => some q

/-- Match `f"[^"]*\x7b[^\x7d]*\x7d[^"]*"` at the start of `s`, returning the
matched text and the remainder.  `[^"]*` is greedy, so the engine commits to
the last `\x7b` in the quote-free run that lets the rest of the pattern
match; the final `[^"]*"` extends the match to the first quote after the
closing brace. -/
def matchFstringAt (s : List Char) : Option (List Char × List Char) :=
  match s with
  | c1 :: c2 :: u =>
    if c1 == 'f' && c2 == dq then
      let r1len := (u.takeWhile (fun x => !(x == dq))).length
      let js := ((List.range r1len).filter (fun j => u.get? j == some lbrace)).reverse
      match tryBraces u js with
      | none => none
      | some q => some (s.take (q + 3), s.drop (q + 3))
    else none
  | _ => none

/-- `m.group(0).replace('\x7b','\x7b\x7b').replace('\x7d','\x7d\x7d')`. -/
def escapeBraces : List Char → List Char
  | [] => []
  | ch :: t =>
    (if ch == lbrace then [lbrace, lbrace]
     else if ch == rbrace then [rbrace, rbrace] else [ch]) ++ escapeBraces t

def fstringGo : Nat → List Char → List Char
  | 0, s => s
  | _ + 1, [] => []
  | f + 1, ch :: t =>
    match matchFstringAt (ch :: t) with
    | some (m, rest) => escapeBraces m ++ fstringGo f rest
    | none => ch :: fstringGo f t

/-- The f-string repair of `_fix_common_errors`: double every brace inside
each matched interpolated-string pattern, scanning left to right and
continuing after each replacement. -/
def fstringSub (s : List Char) : List Char := fstringGo s.length s

def commaGo : Nat → List Char → List Char
  | 0, s => s
  | _ + 1, [] => []
  | f + 1, ch :: t =>
    if ch == ',' then
      match t.dropWhile pyIsSpace with
      | r :: r2 => if r == ')' then ')' :: commaGo f r2 else ch :: commaGo f t
      | [] => ch :: commaGo f t
    else ch :: commaGo f t

/-- `re.sub(r',\s*\)', ')', code)`: one left-to-right pass replacing each
comma-whitespace-closter match by the closer alone. -/
def commaSub (s : List Char) : List Char := commaGo s.length s

/-- `PythonASTParser._fix_common_errors`. -/
def fix_common_errors (code : List Char) : List Char :=
  if code = [] then code
  else pyStrip (commaSub (fstringSub (fixBalance code)))

/-- `PythonASTParser._clean_code`: first markdown block (if any), comment
stripping, then the common-error fixes. -/
def clean_code (code : List Char) : List Char :=
  if code = [] then []
  else
    let code1 :=
      match cleanFirstBlock code with
      | some b => b
      | none => code
    fix_common_errors (stripCommentLines code1)

/-! ### Structural Analyzer (`PythonASTParser`)

The Python AST node kinds that `_extract_statistics` / `_extract_elements`
dispatch on, plus a catch-all `other` for every remaining node kind (the
visitor's default no-op case).  `ast.walk` enumerates every node of the
tree; the walk order (BFS in CPython, preorder DFS here) does not affect
any counted statistic or list length. -/

inductive PyConst where
  | pyStr (s : String)
  | pyInt (n : Int)
  | pyFloat
  | pyBool (b : Bool)
  | pyNone
deriving DecidableEq

/-- `type(node.value).__name__` for a `Constant`. -/
def constTypeName : PyConst → String
  | .pyStr _ => "str"
  | .pyInt _ => "int"
  | .pyFloat => "float"
  | .pyBool _ => "bool"
  | .pyNone => "NoneType"

/-- `isinstance(node.value, str)`. -/
def isStrConst : PyConst → Bool
  | .pyStr _ => true
  | _ => false

/-- `isinstance(node.value, (int, float))`; `bool` is a subclass of `int`
in Python, so boolean constants count as numeric literals. -/
def isNumConst : PyConst → Bool
  | .pyInt _ => true
  | .pyFloat => true
  | .pyBool _ => true
  | _ => false

inductive Node where
  | functionDef (name : String) (args : List String) (decorators : List Node)
      (body : List Node)
  | classDef (name : String) (bases : List Node) (body : List Node)
  | importN (names : List (String × Option String))
  | importFrom (module : Option String) (names : List (String × Option String))
  | assign (targets : List Node) (value : Node)
  | callE (func : Node) (args : List Node) (keywords : List Node)
  | forS (target : Node) (iter : Node) (body : List Node)
  | whileS (test : Node) (body : List Node)
  | ifS (test : Node) (body : List Node) (orelse : List Node)
  | ifExpN (test : Node) (body : Node) (orelse : Node)
  | constantN (v : PyConst)
  | nameN (id : String)
  | attributeN (value : Node) (attr : String)
  | returnS (value : Option Node)
  | listN (elts : List Node)
  | dictN (keys : List Node) (vals : List Node)
  | tupleN (elts : List Node)
  | other (children : List Node)

mutual
/-- `ast.walk(node)`: the node itself and every descendant. -/
def walk : Node → List Node
  | .functionDef n a d b => .functionDef n a d b :: (walkL d ++ walkL b)
  | .classDef n bs b => .classDef n bs b :: (walkL bs ++ walkL b)
  | .importN ns => [.importN ns]
  | .importFrom m ns => [.importFrom m ns]
  | .assign ts v => .assign ts v :: (walkL ts ++ walk v)
  | .callE f a k => .callE f a k :: (walk f ++ walkL a ++ walkL k)
  | .forS t it b => .forS t it b :: (walk t ++ walk it ++ walkL b)
  | .whileS t b => .whileS t b :: (walk t ++ walkL b)
  | .ifS t b e => .ifS t b e :: (walk t ++ walkL b ++ walkL e)
  | .ifExpN t b e => .ifExpN t b e :: (walk t ++ walk b ++ walk e)
  | .constantN v => [.constantN v]
  | .nameN i => [.nameN i]
  | .attributeN v a => .attributeN v a :: walk v
  | .returnS none => [.returnS none]
  | .returnS (some v) => .returnS (some v) :: walk v
  | .listN es => .listN es :: walkL es
  | .dictN ks vs => .dictN ks vs :: (walkL ks ++ walkL vs)
  | .tupleN es => .tupleN es :: walkL es
  | .other cs => .other cs :: walkL cs

def walkL : List Node → List Node
  | [] => []
  | n :: ns => walk n ++ walkL ns
end

/-- The nine counters of `_extract_statistics` (plus `total_lines`, which
the source initialises to 0 and never updates during the walk). -/
structure Stats where
  total_lines : Nat
  function_count : Nat
  class_count : Nat
  import_count : Nat
  variable_count : Nat
  function_call_count : Nat
  loop_count : Nat
  conditional_count : Nat
  string_literal_count : Nat
  numeric_literal_count : Nat
deriving DecidableEq, Repr

def zeroStats : Stats := ⟨0, 0, 0, 0, 0, 0, 0, 0, 0, 0⟩

/-- The `isinstance` dispatch of `_extract_statistics` for one walked
node. -/
def bumpStats (n : Node) (st : Stats) : Stats :=
  match n with
  | .functionDef .. => { st with function_count := st.function_count + 1 }
  | .classDef .. => { st with class_count := st.class_count + 1 }
  | .importN .. => { st with import_count := st.import_count + 1 }
  | .importFrom .. => { st with import_count := st.import_count + 1 }
  | .assign ts _ => { st with variable_count := st.variable_count + ts.length }
  | .callE .. => { st with function_call_count := st.function_call_count + 1 }
  | .forS .. => { st with loop_count := st.loop_count + 1 }
  | .whileS .. => { st with loop_count := st.loop_count + 1 }
  | .ifS .. => { st with conditional_count := st.conditional_count + 1 }
  | .ifExpN .. => { st with conditional_count := st.conditional_count + 1 }
  | .constantN v =>
    if isStrConst v then
      { st with string_literal_count := st.string_literal_count + 1 }
    else if isNumConst v then
      { st with numeric_literal_count := st.numeric_literal_count + 1 }
    else st
  | _ => st

def statsOf : List Node → Stats
  | [] => zeroStats
  | n :: ns => bumpStats n (statsOf ns)

/-- `PythonASTParser._extract_statistics`. -/
def extract_statistics (t : Node) : Stats := statsOf (walk t)

/-- `_get_name`: a bare name resolves to its identifier; a member access
joins the recursively resolved base (rendered through the f-string, so a
`None` base prints as `"None"`) with the attribute around a dot; every
other expression resolves to `None`. -/
def optNameStr : Option String → String
  | none => "None"
  | some s => s

def getName : Node → Option String
  | .nameN id => some id
  | .attributeN v attr => some (optNameStr (getName v) ++ "." ++ attr)
  | _ => none

/-- `_get_decorator_name`.  The Python fallback returns `str(decorator)`,
an address-dependent rendering; it is modelled as `none` (no claim depends
on it, and the entry count per decorator is one either way). -/
def getDecoratorName : Node → Option String
  | .nameN id => some id
  | .callE f _ _ => getName f
  | _ => none

/-- `_get_value_type`. -/
def getValueType : Node → String
  | .constantN v => constTypeName v
  | .listN _ => "list"
  | .dictN _ _ => "dict"
  | .tupleN _ => "tuple"
  | .callE .. => "function_call"
  | _ => "unknown"

def isReturnNode : Node → Bool
  | .returnS _ => true
  | _ => false

/-- `any(isinstance(n, ast.Return) for n in ast.walk(node))`. -/
def hasReturn (n : Node) : Bool := (walk n).any isReturnNode

/-- Python truthiness of `func_name` in the `Call` branch: `None` and the
empty string are falsy. -/
def pyTruthyName : Option String → Bool
  | none => false
  | some s => !(s == "")

structure FuncEntry where
  name : String
  args : List String
  decorators : List (Option String)
  has_return : Bool
deriving DecidableEq, Repr

structure MethodEntry where
  name : String
  args : List String
  has_return : Bool
deriving DecidableEq, Repr

structure ClassEntry where
  name : String
  bases : List (Option String)
  methods : List MethodEntry
deriving DecidableEq, Repr

/-- One entry of `elements['imports']`.  A plain `Import` entry has no
`name` key in the Python dict (modelled `none`); `asname` models the
`alias` key. -/
structure ImportEntry where
  module : Option String
  name : Option String
  asname : Option String
deriving DecidableEq, Repr

/-- `type` models the Python dict key `'type'`. -/
structure VarEntry where
  name : String
  type : String
deriving DecidableEq, Repr

structure CallEntry where
  name : String
  args_count : Nat
  keywords_count : Nat
deriving DecidableEq, Repr

structure LoopEntry where
  type : String
  target : Option String
deriving DecidableEq, Repr

/-- The Python entry also carries a `'test'` rendering via
`_get_condition_string`, whose fallback `str(node)` depends on CPython
object addresses; that field is not modelled (no claim concerns it). -/
structure CondEntry where
  type : String
deriving DecidableEq, Repr

structure Elements where
  functions : List FuncEntry
  classes : List ClassEntry
  imports : List ImportEntry
  vars : List VarEntry
  function_calls : List CallEntry
  loops : List LoopEntry
  conditionals : List CondEntry
deriving DecidableEq, Repr

def emptyElements : Elements := ⟨[], [], [], [], [], [], []⟩

/-- The `isinstance` dispatch of `_extract_elements` for one walked node,
prepending that node's entries to the accumulated lists (walk order is
preserved). -/
def nodeElems (n : Node) (e : Elements) : Elements :=
  match n with
  | .functionDef name args decs body =>
    { e with functions :=
        ⟨name, args, decs.map getDecoratorName,
          hasReturn (.functionDef name args decs body)⟩ :: e.functions }
  | .classDef name bases body =>
    let methods := body.filterMap (fun child =>
      match child with
      | .functionDef mn ma md mb =>
        some ⟨mn, ma, hasReturn (.functionDef mn ma md mb)⟩
      | _ => none)
    { e with classes := ⟨name, bases.map getName, methods⟩ :: e.classes }
  | .importN names =>
    { e with imports :=
        names.map (fun p => ImportEntry.mk (some p.1) none p.2) ++ e.imports }
  | .importFrom m names =>
    { e with imports :=
        names.map (fun p => ImportEntry.mk m (some p.1) p.2) ++ e.imports }
  | .assign ts v =>
    { e with vars :=
        ts.filterMap (fun t =>
          match t with
          | .nameN id => some (VarEntry.mk id (getValueType v))
          | _ => none) ++ e.vars }
  | .callE f args kws =>
    match getName f with
    | some s =>
      if s == "" then e
      else { e with function_calls := ⟨s, args.length, kws.length⟩ :: e.function_calls }
    | none => e
  | .forS t _ _ => { e with loops := ⟨"for", getName t⟩ :: e.loops }
  | .whileS _ _ => { e with loops := ⟨"while", none⟩ :: e.loops }
  | .ifS _ _ _ => { e with conditionals := ⟨"if"⟩ :: e.conditionals }
  | _ => e

def elementsOf : List Node → Elements
  | [] => emptyElements
  | n :: ns => nodeElems n (elementsOf ns)

/-- `PythonASTParser._extract_elements`. -/
def extract_elements (t : Node) : Elements := elementsOf (walk t)

/-! ### `parse_code`, `parse_all_languages`, and the summary counters -/

/-- The persisted per-language record shape.  Python's empty dicts for
`statistics` / `elements` and the absent `raw_code` key of the no-code
record are modelled as `none`. -/
structure AnalysisRecord where
  language : String
  has_code : Bool
  error : Option (List Char)
  statistics : Option Stats
  elements : Option Elements
  raw_code : Option (List Char)
deriving DecidableEq

/-- The record returned when no (or only whitespace) code is provided. -/
def noCodeRecord (lang : String) : AnalysisRecord :=
  ⟨lang, false, some ("No code provided".toList), none, none, none⟩

/-- `PythonASTParser.parse_code`.  `ast.parse` is an explicit parameter;
a raised `SyntaxError` is its `Except.error` outcome, captured into the
record (the generic `except Exception` branch of the source is
unreachable in this model, as every modelled step is total). -/
def parse_code (parseFn : List Char → Except (List Char) Node)
    (code : Option (List Char)) (lang : String) : AnalysisRecord :=
  match code with
  | none => noCodeRecord lang
  | some c =>
    if c = [] ∨ pyStrip c = [] then noCodeRecord lang
    else
      let cleaned := clean_code c
      match parseFn cleaned with
      | .ok tree =>
        ⟨lang, true, none, some (extract_statistics tree),
          some (extract_elements tree), some cleaned⟩
      | .error msg =>
        ⟨lang, true, some ("Syntax error: ".toList ++ msg), none, none, some c⟩

/-- `PythonASTParser.parse_all_languages`: one record per language, in
input order. -/
def parse_all_languages (parseFn : List Char → Except (List Char) Node)
    (inputs : List (String × Option (List Char))) :
    List (String × AnalysisRecord) :=
  inputs.map (fun p => (p.1, parse_code parseFn p.2 p.1))

/-- Python truthiness of `lang_data.get('error')`: absent key and empty
string are falsy, any non-empty string is truthy. -/
def pyTruthyErr : Option (List Char) → Bool
  | none => false
  | some s => !s.isEmpty

/-- `total_languages = len(analysis)`. -/
def totalLanguages (rs : List (String × AnalysisRecord)) : Nat := rs.length

/-- `sum(1 for d in analysis.values() if d.get('has_code', False))`. -/
def withCode (rs : List (String × AnalysisRecord)) : Nat :=
  (rs.filter (fun p => p.2.has_code)).length

/-- `sum(1 for d in analysis.values() if d.get('error'))`. -/
def withErrors (rs : List (String × AnalysisRecord)) : Nat :=
  (rs.filter (fun p => pyTruthyErr p.2.error)).length

/-- A callee that is a bare name or a chain of member accesses whose
innermost base is a bare name — the natural reading of "dotted member
chain". -/
def isDottedChainB : Node → Bool
  | .nameN _ => true
  | .attributeN v _ => isDottedChainB v
  | _ => false

/-- `isNameOrAttr n`: `n` is a bare name or a member access, the two node
shapes `_get_name` resolves. -/
def isNameOrAttr : Node → Bool
  | .nameN _ => true
  | .attributeN _ _ => true
  | _ => false

/-! ### Supporting lemmas -/

theorem hasPrefixB_iff (p s : List Char) :
    hasPrefixB p s = true ↔ ∃ t, p ++ t = s := by
  induction p generalizing s with
  | nil => simp [hasPrefixB]
  | cons a p ih =>
    cases s with
    | nil => simp [hasPrefixB]
    | cons b s =>
      simp only [hasPrefixB, Bool.and_eq_true, decide_eq_true_eq, ih]
      constructor
      · rintro ⟨rfl, t, rfl⟩; exact ⟨t, rfl⟩
      · rintro ⟨t, h⟩
        injection h with h1 h2
        exact ⟨h1, t, h2⟩

theorem findSub_eq_some (p : List Char) :
    ∀ s pre post, findSub p s = some (pre, post) → s = pre ++ p ++ post := by
  intro s
  induction s with
  | nil =>
    intro pre post h
    cases p with
    | nil =>
      simp only [findSub, hasPrefixB, if_true, List.drop_nil, Option.some.injEq,
        Prod.mk.injEq] at h
      obtain ⟨h1, h2⟩ := h
      simp [← h1, ← h2]
    | cons a q =>
      simp [findSub, hasPrefixB] at h
  | cons c t ih =>
    intro pre post h
    rw [findSub] at h
    by_cases hp : hasPrefixB p (c :: t) = true
    · rw [if_pos hp] at h
      rw [hasPrefixB_iff] at hp
      obtain ⟨u, hu⟩ := hp
      simp only [Option.some.injEq, Prod.mk.injEq] at h
      obtain ⟨h1, h2⟩ := h
      rw [← h1, ← h2, ← hu]
      simp [List.drop_left]
    · rw [if_neg hp] at h
      cases hfs : findSub p t with
      | none => rw [hfs] at h; simp at h
      | some pr =>
        obtain ⟨pre', post'⟩ := pr
        rw [hfs] at h
        simp only [Option.map, Option.some.injEq, Prod.mk.injEq] at h
        obtain ⟨h1, h2⟩ := h
        have := ih pre' post' hfs
        rw [← h1, ← h2]
        simp [this]

theorem findSub_here (p s : List Char) (h : hasPrefixB p s = true) :
    findSub p s = some ([], s.drop p.length) := by
  cases s <;> simp [findSub, h]

theorem containsSub_iff (p s : List Char) :
    containsSub p s = true ↔ ∃ x y, x ++ p ++ y = s := by
  constructor
  · intro h
    unfold containsSub at h
    cases hfs : findSub p s with
    | none => rw [hfs] at h; simp at h
    | some pr =>
      exact ⟨pr.1, pr.2, (findSub_eq_some p s pr.1 pr.2 (by rw [hfs])).symm⟩
  · rintro ⟨x, y, rfl⟩
    unfold containsSub
    induction x with
    | nil =>
      have hpre : hasPrefixB p ([] ++ p ++ y) = true := by
        rw [hasPrefixB_iff]; exact ⟨y, by simp⟩
      rw [findSub_here p _ hpre]; rfl
    | cons c x ih =>
      have hshape : (c :: x) ++ p ++ y = c :: (x ++ p ++ y) := by simp
      rw [hshape, findSub]
      by_cases hp : hasPrefixB p (c :: (x ++ p ++ y)) = true
      · rw [if_pos hp]; rfl
      · rw [if_neg hp]
        cases hfs : findSub p (x ++ p ++ y) with
        | none => rw [hfs] at ih; simp [Option.isSome] at ih
        | some pr => simp [Option.map]

/-- The leftmost occurrence of `p` in `a ++ p ++ r` is the explicit one,
provided no occurrence of `p` starts inside `a`. -/
theorem findSub_at_marker (p a r : List Char)
    (h : ∀ a₁ a₂, a = a₁ ++ a₂ → a₂ ≠ [] → hasPrefixB p (a₂ ++ p ++ r) = false) :
    findSub p (a ++ p ++ r) = some (a, r) := by
  induction a with
  | nil =>
    have hpre : hasPrefixB p ([] ++ p ++ r) = true := by
      rw [hasPrefixB_iff]; exact ⟨r, by simp⟩
    rw [findSub_here p _ hpre]
    simp [List.drop_left]
  | cons c a ih =>
    have hne : hasPrefixB p ((c :: a) ++ p ++ r) = false :=
      h [] (c :: a) rfl (by simp)
    have hshape : (c :: a) ++ p ++ r = c :: (a ++ p ++ r) := by simp
    rw [hshape] at hne ⊢
    have hne3 : hasPrefixB p (c :: (a ++ (p ++ r))) = false := by
      simpa [List.append_assoc] using hne
    rw [findSub]
    rw [if_neg (by simp [hne3])]
    rw [ih (fun a₁ a₂ hsplit hne2 => h (c :: a₁) a₂ (by simp [hsplit]) hne2)]
    rfl

theorem unborderedB_spec (p : List Char) (h : unborderedB p = true) :
    ∀ k, k < p.length → 0 < k → p.drop k ≠ p.take (p.length - k) := by
  intro k hk hpos
  unfold unborderedB at h
  rw [List.all_eq_true] at h
  have hkk := h k (List.mem_range.mpr hk)
  simp only [Bool.or_eq_true, beq_iff_eq, Bool.not_eq_true', beq_eq_false_iff_ne] at hkk
  rcases hkk with h0 | hne
  · omega
  · exact hne

/-- If `p` does not occur inside `a` and `p` is unbordered, then no
occurrence of `p` in `a ++ p ++ r` starts strictly inside `a`. -/
theorem no_overlap (p a r : List Char) (hubB : unborderedB p = true)
    (ha : containsSub p a = false) :
    ∀ a₁ a₂, a = a₁ ++ a₂ → a₂ ≠ [] → hasPrefixB p (a₂ ++ p ++ r) = false := by
  intro a₁ a₂ hsplit hne
  by_contra hcon
  have hpre : hasPrefixB p (a₂ ++ p ++ r) = true := by
    cases h : hasPrefixB p (a₂ ++ p ++ r) with
    | false => exact absurd h hcon
    | true => rfl
  rw [hasPrefixB_iff] at hpre
  obtain ⟨t, ht⟩ := hpre
  have htake : (a₂ ++ p ++ r).take p.length = p := by
    rw [← ht]; exact List.take_left p t
  have htake2 : a₂.take p.length ++ (p ++ r).take (p.length - a₂.length) = p := by
    rw [← List.take_append_eq_append_take, ← List.append_assoc, htake]
  by_cases hlen : p.length ≤ a₂.length
  · -- the occurrence fits inside a₂, hence inside a: contradiction with ha
    rw [Nat.sub_eq_zero_of_le hlen] at htake2
    simp only [List.take_zero, List.append_nil] at htake2
    -- htake2 : a₂.take p.length = p
    have ha2 : a₂ = p ++ a₂.drop p.length := by
      conv_lhs => rw [← List.take_append_drop p.length a₂]
      rw [htake2]
    have hc : containsSub p a = true := by
      rw [containsSub_iff]
      refine ⟨a₁, a₂.drop p.length, ?_⟩
      rw [hsplit, List.append_assoc, ← ha2]
    rw [hc] at ha; exact absurd ha (by simp)
  · -- the occurrence overlaps the marker: p would have a border
    push_neg at hlen
    have ha2pos : 0 < a₂.length := by
      cases a₂ with
      | nil => exact absurd rfl hne
      | cons c t => simp
    have hta : a₂.take p.length = a₂ := List.take_of_length_le (Nat.le_of_lt hlen)
    have htpr : (p ++ r).take (p.length - a₂.length) = p.take (p.length - a₂.length) := by
      rw [List.take_append_eq_append_take]
      have h0 : p.length - a₂.length - p.length = 0 := by omega
      rw [h0, List.take_zero, List.append_nil]
    rw [hta, htpr] at htake2
    -- htake2 : a₂ ++ p.take (p.length - a₂.length) = p
    have hdrop : p.drop a₂.length = p.take (p.length - a₂.length) := by
      conv_lhs => rw [← htake2]
      exact List.drop_left _ _
    exact unborderedB_spec p hubB a₂.length hlen ha2pos hdrop

theorem stripThink_nil (f : Nat) : stripThink f [] = [] := by
  cases f <;> rfl

theorem stripThink_fuel :
    ∀ n s f₁ f₂, s.length ≤ n → s.length ≤ f₁ → s.length ≤ f₂ →
      stripThink f₁ s = stripThink f₂ s := by
  intro n
  induction n using Nat.strong_induction_on with
  | _ n ih =>
    intro s f₁ f₂ hn h1 h2
    cases f₁ with
    | zero =>
      have hs : s = [] := List.length_eq_zero.mp (Nat.le_zero.mp h1)
      subst hs
      rw [stripThink_nil, stripThink_nil]
    | succ g₁ =>
      cases f₂ with
      | zero =>
        have hs : s = [] := List.length_eq_zero.mp (Nat.le_zero.mp h2)
        subst hs
        rw [stripThink_nil, stripThink_nil]
      | succ g₂ =>
        cases ho : findSub thinkOpen s with
        | none => simp only [stripThink, ho]
        | some pr =>
          obtain ⟨pre, post⟩ := pr
          cases hc : findSub thinkClose post with
          | none => simp only [stripThink, ho, hc]
          | some pr2 =>
            obtain ⟨mid, rest⟩ := pr2
            have hs1 := findSub_eq_some _ _ _ _ ho
            have hs2 := findSub_eq_some _ _ _ _ hc
            have hrest : rest.length < s.length := by
              rw [hs1, hs2]
              simp [List.length_append, thinkOpen, thinkClose]
              omega
            have hr1 : rest.length ≤ g₁ := by omega
            have hr2 : rest.length ≤ g₂ := by omega
            have heq := ih rest.length (by omega) rest g₁ g₂ (Nat.le_refl _) hr1 hr2
            simp only [stripThink, ho, hc, heq]

theorem stripThink_succ_step (f : Nat) (s pre post mid rest : List Char)
    (ho : findSub thinkOpen s = some (pre, post))
    (hc : findSub thinkClose post = some (mid, rest)) :
    stripThink (f + 1) s = pre ++ stripThink f rest := by
  simp only [stripThink, ho, hc]

/-- The sanitizer's whole `<think>` removal step deletes a paired region
together with its contents: the text before the opening marker survives
unchanged, and scanning continues after the closing marker. -/
theorem stripThinkTop_decomp (a b c : List Char)
    (ha : containsSub thinkOpen a = false) (hb : containsSub thinkClose b = false) :
    stripThinkTop (a ++ thinkOpen ++ b ++ thinkClose ++ c) = a ++ stripThinkTop c := by
  have hub1 : unborderedB thinkOpen = true := by decide
  have hub2 : unborderedB thinkClose = true := by decide
  have hshape : a ++ thinkOpen ++ b ++ thinkClose ++ c
      = (a ++ thinkOpen ++ ((b ++ thinkClose) ++ c)) := by
    simp [List.append_assoc]
  have hlen : (a ++ thinkOpen ++ b ++ thinkClose ++ c).length
      = (a.length + b.length + c.length + 14) + 1 := by
    simp [List.length_append, thinkOpen, thinkClose]
    omega
  have hf1 : findSub thinkOpen (a ++ thinkOpen ++ b ++ thinkClose ++ c)
      = some (a, (b ++ thinkClose) ++ c) := by
    rw [hshape]
    exact findSub_at_marker thinkOpen a ((b ++ thinkClose) ++ c)
      (no_overlap thinkOpen a ((b ++ thinkClose) ++ c) hub1 ha)
  have hf2 : findSub thinkClose ((b ++ thinkClose) ++ c) = some (b, c) :=
    findSub_at_marker thinkClose b c (no_overlap thinkClose b c hub2 hb)
  unfold stripThinkTop
  rw [hlen, stripThink_succ_step _ _ _ _ _ _ hf1 hf2]
  rw [stripThink_fuel c.length c _ c.length (Nat.le_refl _) (by omega) (Nat.le_refl _)]

/-! #### Counting lemmas for the balance trimmer -/

theorem removeFirst_count_self (c : Char) (s : List Char) :
    (removeFirst c s).count c = s.count c - 1 := by
  induction s with
  | nil => rfl
  | cons x t ih =>
    by_cases hx : x = c
    · subst hx
      simp [removeFirst, List.count_cons]
    · have hcx : ¬ (c = x) := fun h => hx h.symm
      simp only [removeFirst, beq_iff_eq, if_neg hx]
      rw [List.count_cons, List.count_cons, ih]
      simp [hx, hcx]

theorem removeFirst_count_other (c d : Char) (hdc : d ≠ c) (s : List Char) :
    (removeFirst c s).count d = s.count d := by
  induction s with
  | nil => rfl
  | cons x t ih =>
    by_cases hx : x = c
    · subst hx
      have h1 : ¬ x = d := fun h => hdc h.symm
      have h2 : ¬ d = x := hdc
      simp only [removeFirst, beq_self_eq_true, if_true]
      rw [List.count_cons]
      simp [h1, h2]
    · simp only [removeFirst, beq_iff_eq, if_neg hx]
      rw [List.count_cons, List.count_cons, ih]

theorem removeLast_count_self (c : Char) (s : List Char) :
    (removeLast c s).count c = s.count c - 1 := by
  unfold removeLast
  rw [List.count_reverse, removeFirst_count_self, List.count_reverse]

theorem removeLast_count_other (c d : Char) (hdc : d ≠ c) (s : List Char) :
    (removeLast c s).count d = s.count d := by
  unfold removeLast
  rw [List.count_reverse, removeFirst_count_other c d hdc, List.count_reverse]

theorem removeN_count_self (c : Char) :
    ∀ n s, (removeN c n s).count c = s.count c - n := by
  intro n
  induction n with
  | zero => intro s; rfl
  | succ n ih =>
    intro s
    show (removeN c n (removeLast c s)).count c = s.count c - (n + 1)
    rw [ih, removeLast_count_self]
    omega

theorem removeN_count_other (c d : Char) (hdc : d ≠ c) :
    ∀ n s, (removeN c n s).count d = s.count d := by
  intro n
  induction n with
  | zero => intro s; rfl
  | succ n ih =>
    intro s
    show (removeN c n (removeLast c s)).count d = s.count d
    rw [ih, removeLast_count_other c d hdc]

theorem trimExcess_balanced (o c : Char) (hoc : o ≠ c) (s : List Char) :
    (trimExcess o c s).count c ≤ (trimExcess o c s).count o := by
  unfold trimExcess
  by_cases h : s.count o < s.count c
  · rw [if_pos h, removeN_count_self, removeN_count_other c o hoc]
    omega
  · rw [if_neg h]
    omega

theorem trimExcess_count_other (o c d : Char) (hd : d ≠ c) (s : List Char) :
    (trimExcess o c s).count d = s.count d := by
  unfold trimExcess
  by_cases h : s.count o < s.count c
  · rw [if_pos h, removeN_count_other c d hd]
  · rw [if_neg h]

theorem trimExcess_noop (o c : Char) (s : List Char)
    (h : s.count c ≤ s.count o) : trimExcess o c s = s := by
  unfold trimExcess
  rw [if_neg (by omega)]

/-- Python `max(key=len)` splits its input into a strictly-shorter prefix,
the returned element, and a no-longer suffix: the result is the first
element of maximal length. -/
theorem pyMax1_spec : ∀ (bs : List (List Char)) (x : List Char),
    ∃ pre suf, x :: bs = pre ++ pyMax1 x bs :: suf ∧
      (∀ b ∈ pre, b.length < (pyMax1 x bs).length) ∧
      (∀ b ∈ suf, b.length ≤ (pyMax1 x bs).length) := by
  intro bs
  induction bs with
  | nil =>
    intro x
    exact ⟨[], [], rfl, by simp, by simp⟩
  | cons b bs ih =>
    intro x
    by_cases hlt : x.length < b.length
    · obtain ⟨pre, suf, hsplit, hpre, hsuf⟩ := ih b
      have hm : pyMax1 x (b :: bs) = pyMax1 b bs := by
        simp only [pyMax1, if_pos hlt]
      refine ⟨x :: pre, suf, ?_, ?_, by rw [hm]; exact hsuf⟩
      · rw [hm, List.cons_append, ← hsplit]
      · intro y hy
        rw [hm]
        rcases List.mem_cons.mp hy with rfl | hy2
        · -- y = x; the old head b bounds x from above strictly
          cases pre with
          | nil =>
            have hb : b = pyMax1 b bs := by
              have := hsplit
              simp only [List.nil_append] at this
              exact (List.cons.injEq _ _ _ _ ▸ this).1
            have hb2 := congrArg List.length hb
            omega
          | cons p pre2 =>
            have hp : p = b := by
              have := hsplit
              simp only [List.cons_append] at this
              exact ((List.cons.injEq _ _ _ _ ▸ this).1).symm
            have hplt := hpre p (by simp)
            have hpb := congrArg List.length hp
            simp only [] at hpb hplt
            omega
        · exact hpre y hy2
    · obtain ⟨pre, suf, hsplit, hpre, hsuf⟩ := ih x
      have hm : pyMax1 x (b :: bs) = pyMax1 x bs := by
        simp only [pyMax1, if_neg hlt]
      cases pre with
      | nil =>
        -- the maximum is x itself; b joins the suffix
        have hx : x = pyMax1 x bs ∧ bs = suf := by
          have := hsplit
          simp only [List.nil_append] at this
          exact ⟨(List.cons.injEq _ _ _ _ ▸ this).1, (List.cons.injEq _ _ _ _ ▸ this).2⟩
        refine ⟨[], b :: suf, ?_, by simp, ?_⟩
        · rw [hm, ← hx.1, ← hx.2]
          rfl
        · intro y hy
          rw [hm]
          rcases List.mem_cons.mp hy with rfl | hy2
          · rw [← hx.1]; omega
          · exact hsuf y hy2
      | cons p pre2 =>
        -- x sits strictly below the maximum found in bs; b joins the prefix
        have hxp : x = p ∧ bs = pre2 ++ pyMax1 x bs :: suf := by
          have := hsplit
          simp only [List.cons_append] at this
          exact ⟨(List.cons.injEq _ _ _ _ ▸ this).1, (List.cons.injEq _ _ _ _ ▸ this).2⟩
        have hxlt : x.length < (pyMax1 x bs).length := by
          have hpl := hpre p (by simp)
          have hxpl := congrArg List.length hxp.1
          simp only [] at hxpl
          omega
        refine ⟨x :: b :: pre2, suf, ?_, ?_, by rw [hm]; exact hsuf⟩
        · rw [hm]
          simp only [List.cons_append]
          rw [← hxp.2]
        · intro y hy
          rw [hm]
          rcases List.mem_cons.mp hy with rfl | hy2
          · exact hxlt
          · rcases List.mem_cons.mp hy2 with rfl | hy3
            · omega
            · exact hpre y (by simp [hy3])

/-- `_extract_statistics` and `_extract_elements` walk the same node list:
one `functions` (resp. `classes`) entry is appended exactly when the
function (resp. class) counter is bumped. -/
theorem counts_agree_list (ns : List Node) :
    (statsOf ns).function_count = (elementsOf ns).functions.length ∧
    (statsOf ns).class_count = (elementsOf ns).classes.length := by
  induction ns with
  | nil => exact ⟨rfl, rfl⟩
  | cons n ns ih =>
    obtain ⟨ih1, ih2⟩ := ih
    cases n with
    | constantN v =>
      refine ⟨?_, ?_⟩ <;>
        · simp only [statsOf, elementsOf, bumpStats, nodeElems]
          split_ifs <;> simp [ih1, ih2]
    | callE f args kws =>
      refine ⟨?_, ?_⟩ <;>
        · simp only [statsOf, elementsOf, bumpStats, nodeElems]
          cases getName f with
          | none => simp [ih1, ih2]
          | some s =>
            by_cases hs : (s == "") = true <;> simp [hs, ih1, ih2]
    | _ => exact ⟨by simp [statsOf, elementsOf, bumpStats, nodeElems, ih1],
        by simp [statsOf, elementsOf, bumpStats, nodeElems, ih2]⟩

/-- Each `Call` node bumps the call counter by one and contributes at most
one `function_calls` entry (none when the callee name is falsy). -/
theorem calls_bounded_list (ns : List Node) :
    (elementsOf ns).function_calls.length ≤ (statsOf ns).function_call_count := by
  induction ns with
  | nil => exact Nat.le_refl 0
  | cons n ns ih =>
    cases n with
    | constantN v =>
      simp only [statsOf, elementsOf, bumpStats, nodeElems]
      split_ifs <;> simpa using ih
    | callE f args kws =>
      simp only [statsOf, elementsOf, bumpStats, nodeElems]
      cases getName f with
      | none => simp; omega
      | some s =>
        by_cases hs : (s == "") = true <;> simp [hs] <;> try omega
    | _ =>
      simp only [statsOf, elementsOf, bumpStats, nodeElems]
      simpa using ih

/-- Every record produced by `parse_code` has a truthy `error` field
exactly when the field is set: the two error strings of the source
(`'No code provided'`, `'Syntax error: ...'`) are never empty. -/
theorem parse_code_truthy_err (parseFn : List Char → Except (List Char) Node)
    (code : Option (List Char)) (lang : String) :
    pyTruthyErr (parse_code parseFn code lang).error
      = (parse_code parseFn code lang).error.isSome := by
  cases code with
  | none => rfl
  | some c =>
    simp only [parse_code]
    by_cases hc : c = [] ∨ pyStrip c = []
    · rw [if_pos hc]; rfl
    · rw [if_neg hc]
      cases parseFn (clean_code c) with
      | ok tree => rfl
      | error msg => rfl

/-- When the fence scanner finds blocks, the sanitizer returns their
`max(key=len)`. -/
theorem afterThink_fences (t1 b : List Char) (bs : List (List Char))
    (hfb : fenceBlocks (stripPreambles t1) = b :: bs) :
    afterThink t1 = pyMax1 b bs := by
  simp only [afterThink]
  rw [hfb]
  rfl

/-! ### The claims -/

/-- Claim C1, counterexample: on the raw response with fenced blocks
`import os` and `import sys`, the extractor returns `import sys`
(10 characters beats 9 — the blocks are not a tie, contrary to the
claim's assertion that `import os` is returned). -/
theorem extract_unequal_blocks_gives_longer :
    extract_code_from_response
        ("```\nimport os\n```\n```\nimport sys\n```".toList)
      = "import sys".toList ∧
    "import sys".toList ≠ "import os".toList := by
  constructor
  · rfl
  · decide

/-- Claim C1 (amended): whenever the fence scanner finds two or more
blocks, `extract_code_from_response` returns exactly the longest block by
character count, with ties broken by first occurrence (the blocks before
the returned one are strictly shorter, those after are no longer); for the
blocks `import os` and `import sys` the lengths differ (9 vs 10), so the
result is `import sys`, not `import os`. -/
theorem extract_longest_fence_first_tiebreak :
    (∀ s : List Char,
      2 ≤ (fenceBlocks (stripPreambles (stripThinkTop s))).length →
        extract_code_from_response s
            = pyMaxByLen (fenceBlocks (stripPreambles (stripThinkTop s))) ∧
          ∃ pre suf,
            fenceBlocks (stripPreambles (stripThinkTop s))
              = pre ++ extract_code_from_response s :: suf ∧
            (∀ b ∈ pre, b.length < (extract_code_from_response s).length) ∧
            (∀ b ∈ suf, b.length ≤ (extract_code_from_response s).length)) ∧
    extract_code_from_response
        ("```\nimport os\n```\n```\nimport sys\n```".toList)
      = "import sys".toList := by
  constructor
  · intro s h
    by_cases hs : s = []
    · rw [hs] at h
      exact absurd h (by decide)
    · have hext : extract_code_from_response s = afterThink (stripThinkTop s) := by
        rw [extract_code_from_response, if_neg hs]
      cases hfb : fenceBlocks (stripPreambles (stripThinkTop s)) with
      | nil =>
        rw [hfb] at h
        exact absurd h (by decide)
      | cons b bs =>
        have hval : extract_code_from_response s = pyMax1 b bs := by
          rw [hext]
          exact afterThink_fences _ _ _ hfb
        constructor
        · rw [hval]
          rfl
        · obtain ⟨pre, suf, hsplit, hpre, hsuf⟩ := pyMax1_spec bs b
          refine ⟨pre, suf, ?_, ?_, ?_⟩
          · rw [hval]
            exact hsplit
          · intro y hy
            rw [hval]
            exact hpre y hy
          · intro y hy
            rw [hval]
            exact hsuf y hy
  · rfl

/-- Witness for C1's amended theorem at the two-block scenario input. -/
theorem extract_longest_fence_first_tiebreak_witness :
    extract_code_from_response
        ("```\nimport os\n```\n```\nimport sys\n```".toList)
      = pyMaxByLen (fenceBlocks (stripPreambles (stripThinkTop
          ("```\nimport os\n```\n```\nimport sys\n```".toList)))) :=
  (extract_longest_fence_first_tiebreak.1 _ (by decide)).1

/-- Claim C2, counterexample: the repair routine (`_clean_code`, which ends
in `_fix_common_errors`) is not idempotent: `repair("f(x,,)") = "f(x,)"`
but `repair("f(x,)") = "f(x)"` — the trailing-comma removal is a single
left-to-right pass and can re-fire on its own output. -/
theorem clean_code_not_idempotent :
    clean_code (clean_code ("f(x,,)".toList)) ≠ clean_code ("f(x,,)".toList) := by
  decide

/-- Claim C2 (amended): the full repair routine is not idempotent (the
single-pass trailing-comma removal and the f-string brace escaping can
both change their own output), but its excess-closer trimming stage is:
after trimming, no bracket kind has more closers than openers, so
re-running the three trims changes nothing. -/
theorem balance_trim_idempotent (s : List Char) :
    fixBalance (fixBalance s) = fixBalance s := by
  have hpr : (fixBalance s).count ')' ≤ (fixBalance s).count '(' := by
    unfold fixBalance
    rw [trimExcess_count_other lbrace rbrace ')' (by decide),
        trimExcess_count_other '[' ']' ')' (by decide),
        trimExcess_count_other lbrace rbrace '(' (by decide),
        trimExcess_count_other '[' ']' '(' (by decide)]
    exact trimExcess_balanced '(' ')' (by decide) s
  have hbk : (fixBalance s).count ']' ≤ (fixBalance s).count '[' := by
    unfold fixBalance
    rw [trimExcess_count_other lbrace rbrace ']' (by decide),
        trimExcess_count_other lbrace rbrace '[' (by decide)]
    exact trimExcess_balanced '[' ']' (by decide) _
  have hbc : (fixBalance s).count rbrace ≤ (fixBalance s).count lbrace :=
    trimExcess_balanced lbrace rbrace (by decide) _
  show trimExcess lbrace rbrace (trimExcess '[' ']'
      (trimExcess '(' ')' (fixBalance s))) = fixBalance s
  rw [trimExcess_noop '(' ')' _ hpr, trimExcess_noop '[' ']' _ hbk,
      trimExcess_noop lbrace rbrace _ hbc]

/-- Claim C3: the extracted code is independent of the contents of a
paired reasoning region — replacing the region's interior by nothing
leaves the extractor's output unchanged, because the region (markers and
interior) is removed before fence selection and before the heuristic
code-start search. -/
theorem extract_independent_of_think_region (a b c : List Char)
    (ha : containsSub thinkOpen a = false)
    (hb : containsSub thinkClose b = false) :
    extract_code_from_response (a ++ thinkOpen ++ b ++ thinkClose ++ c)
      = extract_code_from_response (a ++ thinkOpen ++ thinkClose ++ c) := by
  have h1 : a ++ thinkOpen ++ b ++ thinkClose ++ c ≠ [] := by
    simp [thinkOpen, thinkClose]
  have h2 : a ++ thinkOpen ++ thinkClose ++ c ≠ [] := by
    simp [thinkOpen, thinkClose]
  have hb0 : containsSub thinkClose ([] : List Char) = false := by decide
  have hd1 := stripThinkTop_decomp a b c ha hb
  have hd2 := stripThinkTop_decomp a [] c ha hb0
  have hshift : a ++ thinkOpen ++ thinkClose ++ c
      = a ++ thinkOpen ++ [] ++ thinkClose ++ c := by simp
  rw [extract_code_from_response, extract_code_from_response,
    if_neg h1, if_neg h2, hd1, hshift, hd2]

/-- Witness for C3 at a concrete response whose region contents would
otherwise look like code. -/
theorem extract_independent_of_think_region_witness :
    containsSub thinkOpen ("x".toList) = false ∧
    containsSub thinkClose ("secret".toList) = false ∧
    extract_code_from_response
        ("x".toList ++ thinkOpen ++ "secret".toList ++ thinkClose
          ++ "```\nimport os\n```".toList)
      = extract_code_from_response
          ("x".toList ++ thinkOpen ++ thinkClose ++ "```\nimport os\n```".toList) :=
  ⟨by decide, by decide,
    extract_independent_of_think_region _ _ _ (by decide) (by decide)⟩

/-- Claim C4, counterexample: on `"Sure! Here's the answer: print(42"`
the heuristic code-start search finds no marker (`print` is not among
`def `/`class `/`import `/`from `/`@`/the `__main__` guard), so the
extractor returns the empty string — not the text from `print(42`
onward. -/
theorem extract_print_no_marker :
    extract_code_from_response ("Sure! Here's the answer: print(42".toList) = [] ∧
    ([] : List Char) ≠ "print(42".toList := by
  constructor
  · rfl
  · decide

/-- Claim C4 (amended): on the raw response
`"Sure! Here's the answer: print(42"` the heuristic code-start path does
not fire (no recognised marker), the extractor returns the empty result,
and the analyzer therefore produces the NoCode record — repair and the
structural parse are never reached, for every parser and language. -/
theorem print_input_yields_no_code
    (parseFn : List Char → Except (List Char) Node) (lang : String) :
    parse_code parseFn
        (some (extract_code_from_response
          ("Sure! Here's the answer: print(42".toList))) lang
      = noCodeRecord lang := by
  have he : extract_code_from_response
      ("Sure! Here's the answer: print(42".toList) = [] := by rfl
  rw [he]
  rfl

/-- Claim C5: whenever the structural parse succeeds, the Parsed record's
statistics and elements agree: `function_count` equals the length of the
`functions` list and `class_count` equals the length of the `classes`
list. -/
theorem parsed_function_class_counts_agree
    (parseFn : List Char → Except (List Char) Node) (c : List Char)
    (lang : String) (tree : Node)
    (hne : pyStrip c ≠ [])
    (hok : parseFn (clean_code c) = Except.ok tree) :
    parse_code parseFn (some c) lang
        = ⟨lang, true, none, some (extract_statistics tree),
            some (extract_elements tree), some (clean_code c)⟩ ∧
    (extract_statistics tree).function_count
        = (extract_elements tree).functions.length ∧
    (extract_statistics tree).class_count
        = (extract_elements tree).classes.length := by
  have hc : ¬ (c = [] ∨ pyStrip c = []) := by
    rintro (rfl | h)
    · exact hne rfl
    · exact hne h
  refine ⟨?_, (counts_agree_list (walk tree)).1, (counts_agree_list (walk tree)).2⟩
  simp only [parse_code]
  rw [if_neg hc, hok]

/-- Witness for C5 at a one-function tree. -/
theorem parsed_function_class_counts_agree_witness :
    pyStrip ("x".toList) ≠ [] ∧
    (extract_statistics (Node.functionDef "f" ["a"] [] [])).function_count
      = (extract_elements (Node.functionDef "f" ["a"] [] [])).functions.length :=
  ⟨by decide,
    (parsed_function_class_counts_agree
      (fun _ => Except.ok (Node.functionDef "f" ["a"] [] []))
      ("x".toList) "en" (Node.functionDef "f" ["a"] [] [])
      (by decide) rfl).2.1⟩

/-- Claim C6, counterexample: a language whose raw response is absent
produces the NoCode record, whose `error` field is the non-empty string
`'No code provided'`; the summary's with-errors counter therefore counts
it (value 1, not 0 as claimed), while with-code does not. -/
theorem nocode_counted_in_errors :
    withCode [("en", parse_code (fun _ => Except.error []) none "en")] = 0 ∧
    withErrors [("en", parse_code (fun _ => Except.error []) none "en")] = 1 := by
  constructor
  · rfl
  · rfl

/-- Claim C6 (amended): an absent-response language is counted in the
total counter and in the with-errors counter (its NoCode record carries
the truthy error string `'No code provided'`) but not in the with-code
counter; the with-errors counter counts exactly the languages whose record
has its error field set, i.e. the ParseError and NoCode records. -/
theorem summary_counters_nocode (parseFn : List Char → Except (List Char) Node)
    (pre post : List (String × Option (List Char))) (l : String) :
    totalLanguages (parse_all_languages parseFn (pre ++ [(l, none)] ++ post))
        = totalLanguages (parse_all_languages parseFn (pre ++ post)) + 1 ∧
    withCode (parse_all_languages parseFn (pre ++ [(l, none)] ++ post))
        = withCode (parse_all_languages parseFn (pre ++ post)) ∧
    withErrors (parse_all_languages parseFn (pre ++ [(l, none)] ++ post))
        = withErrors (parse_all_languages parseFn (pre ++ post)) + 1 ∧
    withErrors (parse_all_languages parseFn (pre ++ [(l, none)] ++ post))
        = ((parse_all_languages parseFn (pre ++ [(l, none)] ++ post)).filter
            (fun p => p.2.error.isSome)).length := by
  have hmap : parse_all_languages parseFn (pre ++ [(l, none)] ++ post)
      = parse_all_languages parseFn pre
        ++ parse_all_languages parseFn [(l, none)]
        ++ parse_all_languages parseFn post := by
    simp [parse_all_languages]
  have hmap2 : parse_all_languages parseFn (pre ++ post)
      = parse_all_languages parseFn pre ++ parse_all_languages parseFn post := by
    simp [parse_all_languages]
  have htot : ∀ A B : List (String × AnalysisRecord),
      totalLanguages (A ++ B) = totalLanguages A + totalLanguages B := by
    intro A B
    simp [totalLanguages]
  have hwc : ∀ A B : List (String × AnalysisRecord),
      withCode (A ++ B) = withCode A + withCode B := by
    intro A B
    simp [withCode, List.filter_append]
  have hwe : ∀ A B : List (String × AnalysisRecord),
      withErrors (A ++ B) = withErrors A + withErrors B := by
    intro A B
    simp [withErrors, List.filter_append]
  refine ⟨?_, ?_, ?_, ?_⟩
  · rw [hmap, hmap2, htot, htot, htot]
    have hone : totalLanguages (parse_all_languages parseFn [(l, none)]) = 1 := rfl
    rw [hone]
    omega
  · rw [hmap, hmap2, hwc, hwc, hwc]
    have hzero : withCode (parse_all_languages parseFn [(l, none)]) = 0 := rfl
    rw [hzero]
    omega
  · rw [hmap, hmap2, hwe, hwe, hwe]
    have hone : withErrors (parse_all_languages parseFn [(l, none)]) = 1 := rfl
    rw [hone]
    omega
  · unfold withErrors
    have hcong : ∀ p ∈ parse_all_languages parseFn (pre ++ [(l, none)] ++ post),
        pyTruthyErr p.2.error = p.2.error.isSome := by
      intro p hp
      obtain ⟨q, _, rfl⟩ := List.mem_map.mp hp
      exact parse_code_truthy_err parseFn q.2 q.1
    rw [List.filter_congr hcong]

/-- Claim C7: name resolution joins a member access's recursively resolved
base (a `None` base renders as `"None"`) with the attribute into a
dot-separated string (e.g. `a.b.c`), and every expression that is neither
a bare name nor a member access resolves to the explicit `None` marker —
`_get_name` is total and never raises. -/
theorem name_resolution_dotted_or_none :
    (∀ (v : Node) (attr : String),
        getName (Node.attributeN v attr)
          = some (optNameStr (getName v) ++ "." ++ attr)) ∧
    getName (Node.attributeN (Node.attributeN (Node.nameN "a") "b") "c")
        = some "a.b.c" ∧
    (∀ n : Node, isNameOrAttr n = false → getName n = none) := by
  refine ⟨fun v attr => rfl, rfl, ?_⟩
  intro n h
  cases n <;> simp [isNameOrAttr] at h ⊢ <;> rfl

/-- Witness for C7 at a constant expression (neither name nor member
access). -/
theorem name_resolution_dotted_or_none_witness :
    isNameOrAttr (Node.constantN PyConst.pyNone) = false ∧
    getName (Node.constantN PyConst.pyNone) = none :=
  ⟨rfl, name_resolution_dotted_or_none.2.2 (Node.constantN PyConst.pyNone) rfl⟩

/-- Claim C8: for every language code and parser, `parse_code` applied to
an absent or empty-or-whitespace code string returns the NoCode record —
a constant apart from the echoed language code, mentioning neither the
repairer nor the parser. -/
theorem empty_code_yields_nocode
    (parseFn : List Char → Except (List Char) Node) (lang : String)
    (code : Option (List Char))
    (h : code = none ∨ ∃ s, code = some s ∧ pyStrip s = []) :
    parse_code parseFn code lang = noCodeRecord lang := by
  rcases h with rfl | ⟨s, rfl, hs⟩
  · rfl
  · simp only [parse_code]
    rw [if_pos (Or.inr hs)]

/-- Witness for C8 at a whitespace-only code string. -/
theorem empty_code_yields_nocode_witness :
    (some ("  ".toList) = none
      ∨ ∃ s, some ("  ".toList) = some s ∧ pyStrip s = []) ∧
    parse_code (fun _ => Except.error []) (some ("  ".toList)) "en"
      = noCodeRecord "en" :=
  ⟨Or.inr ⟨_, rfl, by decide⟩,
    empty_code_yields_nocode (fun _ => Except.error []) "en" _
      (Or.inr ⟨_, rfl, by decide⟩)⟩

/-- Claim C9: analysis never aborts the run — `parse_all_languages`
produces exactly one record per input language, in order, and a parse
failure on one language's code is captured into that language's record as
a `Syntax error: ...` description together with the code that failed. -/
theorem analysis_isolates_failures
    (parseFn : List Char → Except (List Char) Node)
    (inputs : List (String × Option (List Char))) :
    ((parse_all_languages parseFn inputs).map Prod.fst = inputs.map Prod.fst) ∧
    (∀ (lang : String) (s msg : List Char), pyStrip s ≠ [] →
      parseFn (clean_code s) = Except.error msg →
      parse_code parseFn (some s) lang
        = ⟨lang, true, some ("Syntax error: ".toList ++ msg),
            none, none, some s⟩) := by
  constructor
  · simp [parse_all_languages]
  · intro lang s msg hne herr
    have hcond : ¬ (s = [] ∨ pyStrip s = []) := by
      rintro (rfl | h)
      · exact hne rfl
      · exact hne h
    simp only [parse_code]
    rw [if_neg hcond, herr]

/-- Witness for C9 at a one-language run whose parser always fails. -/
theorem analysis_isolates_failures_witness :
    ((parse_all_languages (fun _ => Except.error ("boom".toList))
        [("en", some ("x".toList))]).map Prod.fst = ["en"]) ∧
    parse_code (fun _ => Except.error ("boom".toList)) (some ("x".toList)) "en"
      = ⟨"en", true, some ("Syntax error: ".toList ++ "boom".toList),
          none, none, some ("x".toList)⟩ :=
  ⟨(analysis_isolates_failures (fun _ => Except.error ("boom".toList))
      [("en", some ("x".toList))]).1,
    (analysis_isolates_failures (fun _ => Except.error ("boom".toList))
      [("en", some ("x".toList))]).2 "en" ("x".toList) ("boom".toList)
      (by decide) rfl⟩

/-- Claim C10, counterexample: a call whose callee is a member access on
an unresolvable base — e.g. an attribute of a constant, which is not a
bare name nor a dotted chain of names — is NOT omitted from
`function_calls`: it contributes the entry `None.append`. -/
theorem call_with_unresolvable_base_included :
    (extract_elements (Node.callE
        (Node.attributeN (Node.constantN PyConst.pyNone) "append")
        [] [])).function_calls
      = [⟨"None.append", 0, 0⟩] ∧
    isDottedChainB (Node.attributeN (Node.constantN PyConst.pyNone) "append")
      = false := by
  constructor
  · rfl
  · rfl

/-- Claim C10 (amended): every `Call` node bumps
`Statistics.function_call_count`, while `Elements.function_calls` gains an
entry only when the callee's `_get_name` resolution is truthy (the callee
is a bare name or any member access, including one on an unresolvable
base); hence `len(function_calls) ≤ function_call_count`, with strict
inequality for some parsed inputs (e.g. a call whose callee is a
constant). -/
theorem function_calls_bounded_by_count :
    (∀ tree : Node,
      (extract_elements tree).function_calls.length
        ≤ (extract_statistics tree).function_call_count) ∧
    (extract_elements (Node.callE (Node.constantN PyConst.pyNone) [] [])).function_calls.length
      < (extract_statistics (Node.callE (Node.constantN PyConst.pyNone) [] [])).function_call_count := by
  constructor
  · intro tree
    exact calls_bounded_list (walk tree)
  · decide

end LlmPipeline
